import Mathlib

/-!
Verification development for the tokstr video prefetch / streaming cache.

The Rust sources are shallowly embedded:
* `u64` arithmetic is modelled as `Nat`, with explicit `% 2 ^ 64` wrapping in the
  places where the source can overflow or underflow (see `wrap64`, `usub64`);
* `f64` fields (`score`, `length_seconds`, speeds, clock instants) are modelled
  as `ℚ`; on rationals `partial_cmp` is total, so the source's
  `partial_cmp(..).unwrap_or(Equal)` is an ordinary three-way comparison
  (NaN inputs are outside this model);
* `HashMap` state is modelled as an association list (the embedded code never
  depends on iteration order in a way the claims are sensitive to);
* fallible paths return `Option`/`Except`-style results; file-system and HTTP
  effects are explicit function arguments and state fields.

Rust's `Vec::sort_by` is a stable sort by a three-way comparator; it is modelled
by `List.insertionSort` (also stable) over the relation `cmp a b ≠ .gt`, which
agrees with any stable sort for the total preorders used here.
-/

namespace Tokstr

/-- `2 ^ 64`, the modulus of `u64` arithmetic. -/
def U64MOD : Nat := 2 ^ 64

/-- Wrap a natural number into `u64` range (models wrapping `u64` arithmetic). -/
def wrap64 (n : Nat) : Nat := n % U64MOD

/-- Wrapping `u64` subtraction `a - b` for `a b < 2 ^ 64` (models the release-mode
behaviour of an unguarded `u64` subtraction). -/
def usub64 (a b : Nat) : Nat := (a + U64MOD - b) % U64MOD

/-- `src/discovery/models.rs`: author metadata attached to a descriptor. -/
structure UserData where
  npub : Option String
  name : Option String
  profile_picture : Option String
deriving DecidableEq

/-- `src/discovery/models.rs` / `src/bridge.rs`: an immutable video descriptor
from the upstream feed (the fields the embedded code reads). -/
structure NostrVideo where
  id : String
  user : UserData
  title : String
  song_name : String
  likes : String
  comments : String
  url : String
deriving DecidableEq

/-- `src/models/models.rs`: the per-video lifecycle record.  `PathBuf`s are
`String`s, `Instant` is a rational time stamp.  The `score` field is read by the
ranker in `src/download/manager.rs` (the spec describes it as populated from the
descriptor and opaque); `nostr` is omitted except where a claim needs it. -/
structure VideoDownload where
  id : String
  url : String
  local_path : Option String
  downloading : Bool
  length_seconds : Option ℚ
  format : Option String
  width : Option Nat
  height : Option Nat
  downloaded_bytes : Nat
  content_length : Option Nat
  download_speed_bps : ℚ
  last_speed_update_instant : Option ℚ
  last_speed_update_bytes : Nat
  thumbnail_path : Option String
  score : ℚ
deriving DecidableEq

/-- Association-list lookup (models `HashMap::get`). -/
def alist_get {α : Type} (k : String) : List (String × α) → Option α
  | [] => none
  | (k', v) :: rest => if k' = k then some v else alist_get k rest

/-- Association-list in-place update of an existing entry (models
`HashMap::get_mut` followed by a mutation; a missing key is a no-op, exactly as
the source's `if let Some(v) = map.get_mut(..)`). -/
def alist_update {α : Type} (k : String) (f : α → α) : List (String × α) → List (String × α)
  | [] => []
  | (k', v) :: rest => if k' = k then (k', f v) :: rest else (k', v) :: alist_update k f rest

/-- Association-list insert-or-replace (models `HashMap::insert`). -/
def alist_insert {α : Type} (k : String) (v : α) : List (String × α) → List (String × α)
  | [] => [(k, v)]
  | (k', v') :: rest => if k' = k then (k, v) :: rest else (k', v') :: alist_insert k v rest

/-! ## Two-phase ranking (`src/download/manager.rs`, lines 258-353) -/

/-- `has_local_file` (manager.rs line 258). -/
def has_local_file (video : VideoDownload) : Bool := video.local_path.isSome

/-- `content_length.unwrap_or(u64::MAX)` as used by both comparators. -/
def clenOf (v : VideoDownload) : Nat := v.content_length.getD (U64MOD - 1)

/-- Three-way comparison on `Nat`, modelling `u64::cmp`. -/
def cmp_u64 (a b : Nat) : Ordering :=
  if a < b then .lt else if a = b then .eq else .gt

/-- Three-way comparison on `ℚ`, modelling
`f64::partial_cmp(..).unwrap_or(Ordering::Equal)` (total on `ℚ`). -/
def cmp_f64 (a b : ℚ) : Ordering :=
  if a < b then .lt else if a = b then .eq else .gt

/-- The comparator of the `needed` partition (manager.rs lines 290-301):
`content_length` ascending, then `score` descending. -/
def needed_cmp (a b : VideoDownload) : Ordering :=
  match cmp_u64 (clenOf a) (clenOf b) with
  | .eq => cmp_f64 b.score a.score
  | other => other

/-- The comparator of the `leftover` partition (manager.rs lines 304-315):
`score` descending, then `content_length` ascending. -/
def leftover_cmp (a b : VideoDownload) : Ordering :=
  match cmp_f64 b.score a.score with
  | .eq => cmp_u64 (clenOf a) (clenOf b)
  | other => other

/-- Rust's stable `Vec::sort_by cmp`, modelled as a stable insertion sort over
the relation `cmp a b ≠ .gt`. -/
def sort_by_stable {α : Type} (cmp : α → α → Ordering) (l : List α) : List α :=
  List.insertionSort (fun a b => cmp a b ≠ Ordering.gt) l

/-- `length_seconds`' contribution to the accumulated minutes
(`accumulated_minutes += secs / 60.0`, manager.rs lines 346-348; unknown
lengths contribute nothing). -/
def minutes_of (v : VideoDownload) : ℚ :=
  match v.length_seconds with
  | some secs => secs / 60
  | none => 0

/-- The loop body of `partition_for_target` (manager.rs lines 325-353), with the
running `accumulated_count` / `accumulated_minutes` made explicit. -/
def partition_aux (tv : Nat) (tm : ℚ) :
    Nat → ℚ → List VideoDownload → List VideoDownload × List VideoDownload
  | _, _, [] => ([], [])
  | count, minutes, v :: rest =>
    if tv ≤ count ∧ tm ≤ minutes then
      let r := partition_aux tv tm count minutes rest
      (r.1, v :: r.2)
    else
      let r := partition_aux tv tm (count + 1) (minutes + minutes_of v) rest
      (v :: r.1, r.2)

/-- `partition_for_target` (manager.rs lines 325-353). -/
def partition_for_target (tv : Nat) (tm : ℚ) (videos : List VideoDownload) :
    List VideoDownload × List VideoDownload :=
  partition_aux tv tm 0 0 videos

/-- `sort_videos_for_download` (manager.rs lines 280-320): split into
`needed`/`leftover`, stably sort each with its comparator, concatenate. -/
def sort_videos_for_download (tv : Nat) (tm : ℚ) (videos : List VideoDownload) :
    List VideoDownload :=
  let p := partition_for_target tv tm videos
  sort_by_stable needed_cmp p.1 ++ sort_by_stable leftover_cmp p.2

/-! ### Reference definition of the ranking, written from the spec's words
(spec §4.3): the near prefix ends at the first item at which both the count
target and the minutes target have been reached; near is stably sorted by
`(content_length asc, score desc)`, far by `(score desc, content_length asc)`,
unknown `content_length` comparing as `u64::MAX`. -/

/-- Spec §4.3: index of the first item at which both targets have been reached
(walking from the front, accumulating a count and a minutes total), or the
length of the list if that never happens. -/
def spec_split_index (tv : Nat) (tm : ℚ) : Nat → ℚ → List VideoDownload → Nat
  | _, _, [] => 0
  | count, minutes, v :: rest =>
    if tv ≤ count ∧ tm ≤ minutes then 0
    else 1 + spec_split_index tv tm (count + 1) (minutes + minutes_of v) rest

/-- Spec §4.3 near-phase order: `content_length` ascending, ties by `score`
descending (unknown length sinks to the end as `u64::MAX`). -/
def spec_near_le (a b : VideoDownload) : Prop :=
  clenOf a < clenOf b ∨ (clenOf a = clenOf b ∧ b.score ≤ a.score)

/-- Spec §4.3 far-phase order: `score` descending, ties by `content_length`
ascending. -/
def spec_far_le (a b : VideoDownload) : Prop :=
  b.score < a.score ∨ (a.score = b.score ∧ clenOf a ≤ clenOf b)

instance : DecidableRel spec_near_le := fun a b => by
  unfold spec_near_le; infer_instance

instance : DecidableRel spec_far_le := fun a b => by
  unfold spec_far_le; infer_instance

/-- Spec §4.3, assembled: stable-sort the near part and the far part separately
and concatenate. -/
def sort_videos_spec (tv : Nat) (tm : ℚ) (videos : List VideoDownload) :
    List VideoDownload :=
  let k := spec_split_index tv tm 0 0 videos
  List.insertionSort spec_near_le (videos.take k) ++
    List.insertionSort spec_far_le (videos.drop k)

/-- The comparator of the `needed` phase induces exactly the spec's near-phase
order. -/
theorem needed_cmp_ne_gt_iff (a b : VideoDownload) :
    needed_cmp a b ≠ Ordering.gt ↔ spec_near_le a b := by
  unfold needed_cmp cmp_u64 cmp_f64 spec_near_le
  rcases lt_trichotomy (clenOf a) (clenOf b) with h1 | h1 | h1
  · simp [h1]
  · have hnl : ¬ clenOf a < clenOf b := by omega
    rcases lt_trichotomy b.score a.score with h2 | h2 | h2
    · simp [hnl, h1, h2, le_of_lt h2]
    · simp [hnl, h1, h2, le_of_eq h2]
    · have h3 : ¬ b.score < a.score := by linarith
      have h4 : ¬ b.score = a.score := by intro h; rw [h] at h2; exact lt_irrefl _ h2
      have h5 : ¬ b.score ≤ a.score := by linarith
      simp [hnl, h1, h3, h4, h5]
  · have hnl : ¬ clenOf a < clenOf b := by omega
    have hne : ¬ clenOf a = clenOf b := by omega
    simp [hnl, hne]

/-- The comparator of the `leftover` phase induces exactly the spec's far-phase
order. -/
theorem leftover_cmp_ne_gt_iff (a b : VideoDownload) :
    leftover_cmp a b ≠ Ordering.gt ↔ spec_far_le a b := by
  unfold leftover_cmp cmp_u64 cmp_f64 spec_far_le
  rcases lt_trichotomy b.score a.score with h1 | h1 | h1
  · simp [h1]
  · have hnl : ¬ b.score < a.score := by linarith
    rcases lt_trichotomy (clenOf a) (clenOf b) with h2 | h2 | h2
    · simp [hnl, h1, h2, Nat.le_of_lt h2]
    · simp [hnl, h1, h2, Nat.le_of_eq h2]
    · have h3 : ¬ clenOf a < clenOf b := by omega
      have h4 : ¬ clenOf a = clenOf b := by omega
      have h5 : ¬ clenOf a ≤ clenOf b := by omega
      simp [hnl, h1, h3, h4, h5]
  · have hnl : ¬ b.score < a.score := by linarith
    have hne : ¬ b.score = a.score := by intro h; rw [h] at h1; exact lt_irrefl _ h1
    have hne' : ¬ a.score = b.score := fun h => hne h.symm
    simp [hnl, hne, hne']

instance : IsTotal VideoDownload spec_near_le where
  total a b := by
    unfold spec_near_le
    rcases lt_trichotomy (clenOf a) (clenOf b) with h | h | h
    · exact Or.inl (Or.inl h)
    · rcases le_total b.score a.score with hs | hs
      · exact Or.inl (Or.inr ⟨h, hs⟩)
      · exact Or.inr (Or.inr ⟨h.symm, hs⟩)
    · exact Or.inr (Or.inl h)

instance : IsTrans VideoDownload spec_near_le where
  trans a b c hab hbc := by
    unfold spec_near_le at *
    rcases hab with h1 | ⟨h1, h1s⟩ <;> rcases hbc with h2 | ⟨h2, h2s⟩
    · exact Or.inl (lt_trans h1 h2)
    · exact Or.inl (h2 ▸ h1)
    · exact Or.inl (h1 ▸ h2)
    · exact Or.inr ⟨h1.trans h2, le_trans h2s h1s⟩

instance : IsTotal VideoDownload spec_far_le where
  total a b := by
    unfold spec_far_le
    rcases lt_trichotomy b.score a.score with h | h | h
    · exact Or.inl (Or.inl h)
    · rcases le_total (clenOf a) (clenOf b) with hc | hc
      · exact Or.inl (Or.inr ⟨h.symm, hc⟩)
      · exact Or.inr (Or.inr ⟨h, hc⟩)
    · exact Or.inr (Or.inl h)

instance : IsTrans VideoDownload spec_far_le where
  trans a b c hab hbc := by
    unfold spec_far_le at *
    rcases hab with h1 | ⟨h1, h1c⟩ <;> rcases hbc with h2 | ⟨h2, h2c⟩
    · exact Or.inl (lt_trans h2 h1)
    · exact Or.inl (h2 ▸ h1)
    · exact Or.inl (h1 ▸ h2)
    · exact Or.inr ⟨h1.trans h2, le_trans h1c h2c⟩

/-- `orderedInsert` depends on the relation only through its truth values. -/
theorem orderedInsert_congr {α : Type} (r s : α → α → Prop) [DecidableRel r] [DecidableRel s]
    (h : ∀ x y, r x y ↔ s x y) (a : α) :
    ∀ l : List α, List.orderedInsert r a l = List.orderedInsert s a l
  | [] => rfl
  | b :: l => by
    simp only [List.orderedInsert]
    by_cases hr : r a b
    · rw [if_pos hr, if_pos ((h a b).mp hr)]
    · rw [if_neg hr, if_neg (fun hs => hr ((h a b).mpr hs)), orderedInsert_congr r s h a l]

/-- `insertionSort` depends on the relation only through its truth values. -/
theorem insertionSort_congr {α : Type} (r s : α → α → Prop) [DecidableRel r] [DecidableRel s]
    (h : ∀ x y, r x y ↔ s x y) :
    ∀ l : List α, List.insertionSort r l = List.insertionSort s l
  | [] => rfl
  | a :: l => by
    simp only [List.insertionSort]
    rw [insertionSort_congr r s h l, orderedInsert_congr r s h]

/-- The source's stable sort of the `needed` phase is the spec's near-phase
sort. -/
theorem sort_needed_eq_spec (l : List VideoDownload) :
    sort_by_stable needed_cmp l = List.insertionSort spec_near_le l :=
  insertionSort_congr _ _ needed_cmp_ne_gt_iff l

/-- The source's stable sort of the `leftover` phase is the spec's far-phase
sort. -/
theorem sort_leftover_eq_spec (l : List VideoDownload) :
    sort_by_stable leftover_cmp l = List.insertionSort spec_far_le l :=
  insertionSort_congr _ _ leftover_cmp_ne_gt_iff l

/-- Once both targets are met, the source's loop sends every remaining item to
`leftover` (the accumulators are frozen in that branch). -/
theorem partition_aux_frozen (tv : Nat) (tm : ℚ) :
    ∀ (l : List VideoDownload) (count : Nat) (minutes : ℚ),
      tv ≤ count → tm ≤ minutes → partition_aux tv tm count minutes l = ([], l)
  | [], _, _, _, _ => rfl
  | v :: rest, count, minutes, hc, hm => by
    unfold partition_aux
    rw [if_pos ⟨hc, hm⟩, partition_aux_frozen tv tm rest count minutes hc hm]

/-- The source's partition loop is the spec's split: `needed` is the longest
front part on which the two-target condition has not yet been reached. -/
theorem partition_aux_eq_take_drop (tv : Nat) (tm : ℚ) :
    ∀ (l : List VideoDownload) (count : Nat) (minutes : ℚ),
      partition_aux tv tm count minutes l =
        (l.take (spec_split_index tv tm count minutes l),
         l.drop (spec_split_index tv tm count minutes l))
  | [], _, _ => rfl
  | v :: rest, count, minutes => by
    unfold partition_aux spec_split_index
    by_cases h : tv ≤ count ∧ tm ≤ minutes
    · rw [if_pos h, if_pos h, partition_aux_frozen tv tm rest count minutes h.1 h.2]
      simp
    · rw [if_neg h, if_neg h,
        partition_aux_eq_take_drop tv tm rest (count + 1) (minutes + minutes_of v)]
      simp [Nat.add_comm 1]


/-- Sample records used by concrete evaluations: only `id`, `content_length`,
`score` and `length_seconds` vary. -/
def mkv (i : String) (cl : Option Nat) (sc : ℚ) (len : Option ℚ) : VideoDownload :=
  { id := i, url := i, local_path := none, downloading := false,
    length_seconds := len, format := none, width := none, height := none,
    downloaded_bytes := 0, content_length := cl, download_speed_bps := 0,
    last_speed_update_instant := none, last_speed_update_bytes := 0,
    thumbnail_path := none, score := sc }

def vA : VideoDownload := mkv "A" (some 10) 0 none
def vB : VideoDownload := mkv "B" (some 1) 0 (some 120)
def vC : VideoDownload := mkv "C" (some 5) 100 none

theorem c4_ranking_refines_spec (tv : Nat) (tm : ℚ) (l : List VideoDownload) :
    sort_videos_for_download tv tm l = sort_videos_spec tv tm l ∧
      List.Perm (sort_videos_for_download tv tm l) l := by
  have heq : sort_videos_for_download tv tm l = sort_videos_spec tv tm l := by
    unfold sort_videos_for_download sort_videos_spec partition_for_target
    rw [partition_aux_eq_take_drop tv tm l 0 0]
    simp only [sort_needed_eq_spec, sort_leftover_eq_spec]
  refine ⟨heq, ?_⟩
  rw [heq]
  unfold sort_videos_spec
  have hp := (List.perm_insertionSort spec_near_le
      (l.take (spec_split_index tv tm 0 0 l))).append
    (List.perm_insertionSort spec_far_le (l.drop (spec_split_index tv tm 0 0 l)))
  simpa [List.take_append_drop] using hp

theorem partition_aux_of_nonpos (tv : Nat) (tm : ℚ) :
    ∀ (l : List VideoDownload) (count : Nat) (minutes : ℚ),
      tm ≤ minutes → (∀ v ∈ l, 0 ≤ minutes_of v) →
      partition_aux tv tm count minutes l = (l.take (tv - count), l.drop (tv - count))
  | [], _, _, _, _ => by simp [partition_aux]
  | v :: rest, count, minutes, hm, hl => by
    unfold partition_aux
    by_cases hc : tv ≤ count
    · rw [if_pos ⟨hc, hm⟩, partition_aux_frozen tv tm rest count minutes hc hm]
      have h0 : tv - count = 0 := by omega
      simp [h0]
    · rw [if_neg (fun hh => hc hh.1)]
      have hm' : tm ≤ minutes + minutes_of v := by
        have := hl v (List.mem_cons_self v rest)
        linarith
      rw [partition_aux_of_nonpos tv tm rest (count + 1) (minutes + minutes_of v) hm'
        (fun w hw => hl w (List.mem_cons_of_mem _ hw))]
      have hsub : tv - count = (tv - (count + 1)) + 1 := by omega
      simp [hsub]

theorem sort_videos_of_nonpos (tv : Nat) (tm : ℚ) (htm : tm ≤ 0) (l : List VideoDownload)
    (hl : ∀ v ∈ l, 0 ≤ minutes_of v) :
    sort_videos_for_download tv tm l =
      List.insertionSort spec_near_le (l.take tv) ++
        List.insertionSort spec_far_le (l.drop tv) := by
  unfold sort_videos_for_download partition_for_target
  rw [partition_aux_of_nonpos tv tm l 0 0 htm hl]
  simp only [Nat.sub_zero, sort_needed_eq_spec, sort_leftover_eq_spec]

theorem c7_amended_idem (tv : Nat) (tm : ℚ) (htm : tm ≤ 0) (l : List VideoDownload)
    (hl : ∀ v ∈ l, 0 ≤ minutes_of v) :
    sort_videos_for_download tv tm (sort_videos_for_download tv tm l) =
      sort_videos_for_download tv tm l := by
  have h1 := sort_videos_of_nonpos tv tm htm l hl
  set A := List.insertionSort spec_near_le (l.take tv) with hA
  set B := List.insertionSort spec_far_le (l.drop tv) with hB
  have hl' : ∀ v ∈ A ++ B, 0 ≤ minutes_of v := by
    intro v hv
    rcases List.mem_append.mp hv with h | h
    · exact hl v (List.take_subset tv l ((List.mem_insertionSort spec_near_le).mp h))
    · exact hl v (List.drop_subset tv l ((List.mem_insertionSort spec_far_le).mp h))
  have hAlen : A.length ≤ tv := by
    rw [hA, List.length_insertionSort, List.length_take]
    omega
  have hcases : (tv ≤ l.length ∧ A.length = tv) ∨ B = [] := by
    by_cases hlen : tv ≤ l.length
    · left
      refine ⟨hlen, ?_⟩
      rw [hA, List.length_insertionSort, List.length_take]
      omega
    · right
      rw [hB, List.drop_of_length_le (by omega)]
      rfl
  have htake : (A ++ B).take tv = A := by
    rw [List.take_append_eq_append_take, List.take_of_length_le hAlen]
    rcases hcases with ⟨_, hAl⟩ | hBnil
    · rw [hAl]
      simp
    · simp [hBnil]
  have hdrop : (A ++ B).drop tv = B := by
    rw [List.drop_append_eq_append_drop, List.drop_of_length_le hAlen]
    rcases hcases with ⟨_, hAl⟩ | hBnil
    · rw [hAl]
      simp
    · simp [hBnil]
  rw [h1, sort_videos_of_nonpos tv tm htm (A ++ B) hl', htake, hdrop]
  have hsA : List.Sorted spec_near_le A := hA ▸ List.sorted_insertionSort spec_near_le (l.take tv)
  have hsB : List.Sorted spec_far_le B := hB ▸ List.sorted_insertionSort spec_far_le (l.drop tv)
  rw [hsA.insertionSort_eq, hsB.insertionSort_eq]

theorem c7_counterexample :
    sort_videos_for_download 0 1 (sort_videos_for_download 0 1 [vA, vB, vC]) ≠
      sort_videos_for_download 0 1 [vA, vB, vC] := by
  have h1 : sort_videos_for_download 0 1 [vA, vB, vC] = [vB, vA, vC] := by
    norm_num [sort_videos_for_download, partition_for_target, partition_aux, minutes_of,
      clenOf, sort_by_stable, needed_cmp, leftover_cmp, cmp_u64, cmp_f64,
      List.insertionSort, List.orderedInsert, vA, vB, vC, mkv, U64MOD]
  have h2 : sort_videos_for_download 0 1 [vB, vA, vC] = [vB, vC, vA] := by
    norm_num [sort_videos_for_download, partition_for_target, partition_aux, minutes_of,
      clenOf, sort_by_stable, needed_cmp, leftover_cmp, cmp_u64, cmp_f64,
      List.insertionSort, List.orderedInsert, vA, vB, vC, mkv, U64MOD]
  rw [h1, h2]
  simp [vA, vB, vC, mkv]

theorem c7_amended_witness :
    ((0 : ℚ) ≤ 0 ∧ ∀ v ∈ [vA], 0 ≤ minutes_of v) ∧
      sort_videos_for_download 1 0 (sort_videos_for_download 1 0 [vA]) =
        sort_videos_for_download 1 0 [vA] := by
  have hl : ∀ v ∈ [vA], 0 ≤ minutes_of v := by
    intro v hv
    simp only [List.mem_singleton] at hv
    subst hv
    simp [minutes_of, vA, mkv]
  exact ⟨⟨le_refl 0, hl⟩, c7_amended_idem 1 0 (le_refl 0) [vA] hl⟩

/-! ## Behind-limit eviction (`src/download/manager.rs`, lines 151-172) -/

/-- The body of `enforce_behind_limit`'s scan: for each discovered item whose own
`length_seconds` exceeds `max_behind_seconds` (as `f64`), `local_path.take()`
clears the path and, when one was present, schedules the file for removal.
Returns the updated table and the removal list in iteration order. -/
def evict_pass (max_behind : Nat) :
    List (String × VideoDownload) → List (String × VideoDownload) × List String
  | [] => ([], [])
  | (k, v) :: rest =>
    let r := evict_pass max_behind rest
    match v.length_seconds with
    | some len =>
      if (max_behind : ℚ) < len then
        match v.local_path with
        | some p => ((k, { v with local_path := none }) :: r.1, p :: r.2)
        | none => ((k, { v with local_path := none }) :: r.1, r.2)
      else ((k, v) :: r.1, r.2)
    | none => ((k, v) :: r.1, r.2)

/-- `enforce_behind_limit` (manager.rs lines 151-172).  The source reads
`current_index` (line 152) but never uses it, and it never touches the storage
accountant; both facts are reflected here by passing `current_idx` and
`storage` through unchanged. -/
def enforce_behind_limit (current_idx : Nat) (max_behind_seconds : Nat)
    (discovered : List (String × VideoDownload)) (storage : Nat) :
    List (String × VideoDownload) × List String × Nat :=
  let r := evict_pass max_behind_seconds discovered
  (r.1, r.2, storage)

/-! ## Playlist (`src/service/playlist.rs`) -/

/-- `Playlist` (playlist.rs lines 3-11); the random uuid `id` field is
irrelevant to the claims and omitted. -/
structure Playlist where
  current_position : Option Nat
  last_sent_position : Option Nat
  items : List VideoDownload
  items_by_id : List (String × Nat)
deriving DecidableEq

/-- `Playlist::new` (playlist.rs lines 14-22). -/
def Playlist.new : Playlist :=
  { current_position := none, last_sent_position := none, items := [], items_by_id := [] }

/-- `Playlist::add` (playlist.rs lines 24-31): appends unless the id is already
present. -/
def Playlist.add (p : Playlist) (video : VideoDownload) : Playlist :=
  if (alist_get video.id p.items_by_id).isSome then p
  else
    { p with
      items := p.items ++ [video],
      items_by_id := alist_insert video.id p.items.length p.items_by_id }

/-- `Playlist::new_content` (playlist.rs lines 64-72), returning the emitted
batch and the playlist afterwards.  Note the source: when
`last_sent_position = Some pos` and `pos + 1 < items.len()` it returns the tail
without changing the mark, otherwise it re-assigns the mark to its existing
value (a no-op) and returns `items.clone()`; when the mark is `None` (its
initial value, never set elsewhere) it returns `items.clone()` unchanged. -/
def Playlist.new_content (p : Playlist) : List VideoDownload × Playlist :=
  match p.last_sent_position with
  | some pos =>
    if pos + 1 < p.items.length then (p.items.drop (pos + 1), p)
    else (p.items, { p with last_sent_position := some pos })
  | none => (p.items, p)

/-! ## Author-metadata enrichment (`src/discovery/fetchers.rs`) -/

/-- The external `nostr_sdk` operations used by the enrichment path, supplied as
an environment: `PublicKey::parse`/`from_hex` (collapsed into one parser, as the
source tries them in sequence), `to_bech32`, and
`fetch_events + parse_user_metadata` with its 10-second deadline collapsed into
an `Option` result keyed by bech32. -/
structure MetaEnv where
  parse_pubkey : String → Option String
  to_bech32 : String → Option String
  fetch_user_metadata : String → Option (List (String × UserData))

/-- `ContentDiscovery::maybe_fetch_and_set_metadata` (fetchers.rs lines
109-154): serve from the author cache, else parse the key, fetch metadata
within the deadline, cache it under the canonical bech32 key and set
`video.user`. -/
def maybe_fetch_and_set_metadata (env : MetaEnv) (known_authors : List (String × UserData))
    (npub_str : String) (video : NostrVideo) : List (String × UserData) × NostrVideo :=
  match alist_get npub_str known_authors with
  | some user_data => (known_authors, { video with user := user_data })
  | none =>
    match env.parse_pubkey npub_str with
    | none => (known_authors, video)
    | some pubkey =>
      match env.fetch_user_metadata pubkey with
      | none => (known_authors, video)
      | some user_data_map =>
        match env.to_bech32 pubkey with
        | none => (known_authors, video)
        | some pubkey_bech32 =>
          match alist_get pubkey_bech32 user_data_map with
          | some user_data =>
            (alist_insert pubkey_bech32 user_data known_authors,
             { video with user := user_data })
          | none => (known_authors, video)

/-- The per-video body of the background task in `ContentDiscovery::new`
(fetchers.rs lines 77-91).  The source invokes the enrichment on
`&mut video.clone()` — a temporary that is immediately dropped — and then sends
the *original* `video`; only the author-cache update survives. -/
def process_discovered_video (env : MetaEnv) (known_authors : List (String × UserData))
    (video : NostrVideo) : List (String × UserData) × NostrVideo :=
  match video.user.npub with
  | some npub_str =>
    let r := maybe_fetch_and_set_metadata env known_authors npub_str video
    (r.1, video)
  | none => (known_authors, video)

/-- An item longer than the behind-window that also has a local file. -/
def vLong : VideoDownload :=
  { mkv "X" (some 1000) 0 (some 120) with
    local_path := some "/tmp/x.mp4", downloaded_bytes := 40 }

/-- Claim C1: the spec requires eviction exactly of the items lying behind the
playback cursor by more than `max_behind_seconds` of cumulative duration, with
the item's `downloaded_bytes` refunded to the storage accountant.  The source
instead evicts any item whose own `length_seconds` exceeds the window — for
every value of the playback cursor, including cursors the item is ahead of —
and leaves the accountant unchanged (here: still `40`, not `40 - 40`).  This
evaluates the eviction pass to exhibit both divergences. -/
theorem c1_eviction_ignores_cursor_and_accountant :
    ∀ current_idx : Nat,
      enforce_behind_limit current_idx 60 [("X", vLong)] 40 =
        ([("X", { vLong with local_path := none })], ["/tmp/x.mp4"], 40) := by
  intro current_idx
  norm_num [enforce_behind_limit, evict_pass, vLong, mkv]

/-- Claim C8: `new_content` never advances `last_sent_position` (first
conjunct: the mark after a call always equals the mark before), so repeated
calls re-emit old items: with a single appended item, two successive calls both
return it (second conjunct), contradicting "returns only items appended since
the last call". -/
theorem c8_new_content_repeats_items :
    (∀ p : Playlist, ((Playlist.new_content p).2).last_sent_position = p.last_sent_position) ∧
      ((Playlist.add Playlist.new vA).new_content.1 = [vA] ∧
        (((Playlist.add Playlist.new vA).new_content.2).new_content.1 = [vA]) ∧
        vA ∈ (Playlist.add Playlist.new vA).new_content.1 ∧
        vA ∈ (((Playlist.add Playlist.new vA).new_content.2).new_content.1)) := by
  constructor
  · intro p
    unfold Playlist.new_content
    cases h : p.last_sent_position with
    | none => simp [h]
    | some pos =>
      by_cases hlt : pos + 1 < p.items.length
      · simp [hlt, h]
      · simp [hlt]
  · refine ⟨?_, ?_, ?_, ?_⟩ <;> decide

/-- Author metadata as it sits in an un-enriched descriptor. -/
def user_plain : UserData := { npub := some "npubX", name := none, profile_picture := none }

/-- The author metadata a successful lookup returns. -/
def user_rich : UserData :=
  { npub := some "npubX", name := some "alice", profile_picture := some "http://pic" }

/-- A discovered descriptor whose author is not yet cached. -/
def nv_plain : NostrVideo :=
  { id := "e1", user := user_plain, title := "t", song_name := "s",
    likes := "0", comments := "0", url := "http://v" }

/-- An environment in which the author key parses, canonicalizes to itself and
the metadata lookup succeeds within the deadline. -/
def meta_env_ok : MetaEnv :=
  { parse_pubkey := fun s => if s = "npubX" then some "pkX" else none,
    to_bech32 := fun s => if s = "pkX" then some "npubX" else none,
    fetch_user_metadata := fun s => if s = "pkX" then some [("npubX", user_rich)] else none }

/-- Claim C9: with an empty cache and a successful metadata lookup, the
enrichment helper does produce an enriched record and the cache is updated
under the bech32 key (second and first conjuncts) — but the background loop
passes the helper a dropped clone, so the descriptor actually emitted is the
unchanged original, whose `name` and `picture_url` are absent (first and third
conjuncts).  This contradicts the claim that the emitted descriptor carries the
fetched metadata. -/
theorem c9_enrichment_applied_to_dropped_clone :
    process_discovered_video meta_env_ok [] nv_plain = ([("npubX", user_rich)], nv_plain) ∧
      (maybe_fetch_and_set_metadata meta_env_ok [] "npubX" nv_plain).2.user = user_rich ∧
      nv_plain.user.name = none ∧ nv_plain.user.profile_picture = none := by
  refine ⟨?_, ?_, ?_, ?_⟩ <;> decide

/-! ## Progressive download engine (`src/download/manager.rs`, lines 176-251 and
355-496) -/

/-- The metadata extracted by the container parser (manager.rs lines 19-24). -/
structure VideoMetadata where
  duration_seconds : ℚ
  codec : String
  width : Nat
  height : Nat

/-- A streaming GET response: success flag, the `Content-Length` header, and the
body chunks. -/
structure HttpResp where
  ok : Bool
  content_length : Option Nat
  chunks : List (List Nat)

/-- The download task's environment: `try_parse_mp4_in_blocking_thread`
(`Ok(None)` and `Err` are both non-fatal in the loop and collapse to `none`),
`Instant::now` at the i-th chunk, and the fresh uuid temp path. -/
structure DlEnv where
  try_parse : List Nat → Option VideoMetadata
  now : Nat → ℚ
  new_path : String

/-- The engine-visible shared state: the discovered table, the storage
accountant and the temp-directory contents. -/
structure EngState where
  discovered : List (String × VideoDownload)
  storage : Nat
  files : List (String × List Nat)
deriving DecidableEq

/-- The accountant's critical section (manager.rs lines 393-400): one lock of
`current_storage_bytes` checking `current + len > max`; `none` is the
"Storage budget exceeded" abort, `some` commits the increment. -/
def storage_check_and_add (max_storage current len : Nat) : Option Nat :=
  if max_storage < current + len then none else some (current + len)

/-- `update_metadata` (manager.rs lines 555-573). -/
def update_metadata_map (video_id file_path : String) (m : VideoMetadata)
    (discovered : List (String × VideoDownload)) : List (String × VideoDownload) :=
  alist_update video_id (fun v =>
    let v1 := { v with
      local_path := some file_path,
      length_seconds := some m.duration_seconds,
      format := some m.codec }
    let v2 := if 0 < m.width then { v1 with width := some m.width } else v1
    if 0 < m.height then { v2 with height := some m.height } else v2) discovered

/-- The per-chunk progress block (manager.rs lines 406-435): set
`downloaded_bytes`, fill `content_length` from the response if still unknown,
and run the ≥ 1 s speed-sample update. -/
def chunk_progress_update (resp_cl : Option Nat) (now : ℚ) (downloaded : Nat)
    (v : VideoDownload) : VideoDownload :=
  let v1 := { v with downloaded_bytes := downloaded }
  let v2 := if v1.content_length = none then { v1 with content_length := resp_cl } else v1
  match v2.last_speed_update_instant with
  | none =>
    { v2 with
      last_speed_update_instant := some now,
      last_speed_update_bytes := downloaded,
      download_speed_bps := 0 }
  | some prev =>
    let dt := now - prev
    if 1 ≤ dt then
      { v2 with
        download_speed_bps := ((downloaded - v2.last_speed_update_bytes : Nat) : ℚ) / dt,
        last_speed_update_instant := some now,
        last_speed_update_bytes := downloaded }
    else v2

/-- One iteration of the chunk loop (manager.rs lines 391-465): storage critical
section, append to the file, progress update, speculative parse.  `none` is the
storage abort; `some` carries the state and the loop variables
`(parse_buffer, downloaded_bytes, metadata_extracted)` for the next round. -/
def dl_chunk_step (max_storage : Nat) (env : DlEnv) (video_id file_path : String)
    (resp_cl : Option Nat) (i : Nat) (chunk buf : List Nat) (downloaded : Nat)
    (extracted : Bool) (s : EngState) : Option (EngState × List Nat × Nat × Bool) :=
  match storage_check_and_add max_storage s.storage chunk.length with
  | none => none
  | some storage' =>
    let s3 : EngState :=
      { storage := storage',
        files := alist_update file_path (fun bs => bs ++ chunk) s.files,
        discovered :=
          alist_update video_id
            (chunk_progress_update resp_cl (env.now i) (downloaded + chunk.length))
            s.discovered }
    if extracted then some (s3, buf, downloaded + chunk.length, true)
    else
      match env.try_parse (buf ++ chunk) with
      | some m =>
        some ({ s3 with discovered := update_metadata_map video_id file_path m s3.discovered },
          buf ++ chunk, downloaded + chunk.length, true)
      | none => some (s3, buf ++ chunk, downloaded + chunk.length, false)

/-- The chunk loop (`while let Some(chunk) = resp.chunk()`), iterating
`dl_chunk_step`; returns the exit state and `none` on the storage abort. -/
def dl_chunks (max_storage : Nat) (env : DlEnv) (video_id file_path : String)
    (resp_cl : Option Nat) :
    List (List Nat) → Nat → List Nat → Nat → Bool → EngState →
      EngState × Option (List Nat × Nat × Bool)
  | [], _, buf, downloaded, extracted, s => (s, some (buf, downloaded, extracted))
  | chunk :: rest, i, buf, downloaded, extracted, s =>
    match dl_chunk_step max_storage env video_id file_path resp_cl i chunk buf downloaded
        extracted s with
    | none => (s, none)
    | some (s', buf', downloaded', extracted') =>
      dl_chunks max_storage env video_id file_path resp_cl rest (i + 1) buf' downloaded'
        extracted' s'

/-- The pre-loop part of `download_video_progressive` (manager.rs lines
365-385): record the response's `content_length`, allocate the output path and
store it as `local_path`, create the (empty) file. -/
def dvp_setup (video_id file_path : String) (resp_cl : Option Nat) (s : EngState) : EngState :=
  let s1 := match resp_cl with
    | some cl =>
      { s with discovered :=
          alist_update video_id (fun v => { v with content_length := some cl }) s.discovered }
    | none => s
  let s2 :=
    { s1 with discovered :=
        alist_update video_id (fun v => { v with local_path := some file_path }) s1.discovered }
  { s2 with files := alist_insert file_path [] s2.files }

/-- The post-loop part of `download_video_progressive` (manager.rs lines
467-495): final parse attempt if metadata was never extracted, then
`downloading := false`.  The Bool is `true` on the `Ok` return, `false` when
the loop aborted. -/
def dvp_finalize (env : DlEnv) (video_id file_path : String) :
    EngState × Option (List Nat × Nat × Bool) → EngState × Bool
  | (s4, none) => (s4, false)
  | (s4, some (buf, _downloaded, extracted)) =>
    let s5 := if extracted then s4 else
      match env.try_parse buf with
      | some m => { s4 with discovered := update_metadata_map video_id file_path m s4.discovered }
      | none => s4
    ({ s5 with discovered :=
        alist_update video_id (fun v => { v with downloading := false }) s5.discovered },
     true)

/-- `download_video_progressive` (manager.rs lines 355-496).  `none` is the
`Err` return (non-2xx status, or the storage abort propagated from the loop);
no error path deletes the created file, resets `local_path` or refunds the
accountant. -/
def download_video_progressive (max_storage : Nat) (env : DlEnv) (video : VideoDownload)
    (resp : HttpResp) (s : EngState) : EngState × Option VideoDownload :=
  if ¬ resp.ok then (s, none)
  else
    let r := dvp_finalize env video.id env.new_path
      (dl_chunks max_storage env video.id env.new_path resp.content_length resp.chunks
        0 [] 0 false (dvp_setup video.id env.new_path resp.content_length s))
    (r.1, if r.2 then some video else none)

/-- `queue.iter().position(|qv| qv.id == id)` followed by `queue.remove(pos)`. -/
def remove_first_by_id (id : String) : List VideoDownload → List VideoDownload
  | [] => []
  | v :: rest => if v.id = id then rest else v :: remove_first_by_id id rest

/-- The spawned task's completion handler (manager.rs lines 219-248): on `Err`,
flip `downloading` off in the discovered table and drop the queue entry —
nothing else; on `Ok`, drop the queue entry and append the pre-download
snapshot to the playlist. -/
def download_task_run (max_storage : Nat) (env : DlEnv) (video : VideoDownload)
    (resp : HttpResp) (s : EngState) (queue : List VideoDownload) (playlist : Playlist) :
    EngState × List VideoDownload × Playlist :=
  match download_video_progressive max_storage env video resp s with
  | (s', none) =>
    ({ s' with discovered :=
        alist_update video.id (fun v => { v with downloading := false }) s'.discovered },
     remove_first_by_id video.id queue, playlist)
  | (s', some _) => (s', remove_first_by_id video.id queue, playlist.add video)


def dl_env0 : DlEnv :=
  { try_parse := fun _ => none, now := fun _ => 0, new_path := "/tmp/dl.mp4" }

def vQ : VideoDownload := { mkv "A" none 0 none with downloading := true, url := "http://a" }

def vQ_after : VideoDownload :=
  { vQ with
    content_length := some 110,
    local_path := some "/tmp/dl.mp4",
    downloaded_bytes := 50,
    last_speed_update_instant := some 0,
    last_speed_update_bytes := 50,
    download_speed_bps := 0,
    downloading := false }

def resp_over : HttpResp :=
  { ok := true, content_length := some 110,
    chunks := [List.replicate 50 7, List.replicate 60 7] }

example :
    download_task_run 100 dl_env0 vQ resp_over
        { discovered := [("A", vQ)], storage := 0, files := [] } [vQ] Playlist.new =
      ({ discovered := [("A", vQ_after)], storage := 50,
         files := [("/tmp/dl.mp4", List.replicate 50 7)] }, [], Playlist.new) := by
  decide


theorem c2_failed_download_leaks_file_and_bytes :
    download_task_run 100 dl_env0 vQ resp_over
        { discovered := [("A", vQ)], storage := 0, files := [] } [vQ] Playlist.new =
      ({ discovered := [("A", vQ_after)], storage := 50,
         files := [("/tmp/dl.mp4", List.replicate 50 7)] }, [], Playlist.new) ∧
      vQ_after.local_path = some "/tmp/dl.mp4" ∧ vQ_after.downloading = false ∧
      (50 : Nat) ≠ 0 := by
  refine ⟨?_, ?_, ?_, ?_⟩ <;> decide

/-- The states the storage accountant can reach: it starts at `0`
(`AppState::new`, state.rs line 48) and is only ever changed by the guarded
increment of the chunk loop's critical section — no code path decrements it. -/
inductive StorageReach (max_storage : Nat) : Nat → Prop
  | base : StorageReach max_storage 0
  | chunk (current current' len : Nat) :
      StorageReach max_storage current →
      storage_check_and_add max_storage current len = some current' →
      StorageReach max_storage current'

theorem dl_chunk_step_storage_le {max_storage : Nat} {env : DlEnv}
    {video_id file_path : String} {resp_cl : Option Nat} {i : Nat} {chunk buf : List Nat}
    {downloaded : Nat} {extracted : Bool} {s s' : EngState} {buf' : List Nat}
    {downloaded' : Nat} {extracted' : Bool}
    (h : dl_chunk_step max_storage env video_id file_path resp_cl i chunk buf downloaded
        extracted s = some (s', buf', downloaded', extracted')) :
    s'.storage ≤ max_storage := by
  unfold dl_chunk_step at h
  cases hc : storage_check_and_add max_storage s.storage chunk.length with
  | none => rw [hc] at h; cases h
  | some storage' =>
    rw [hc] at h
    have hle : storage' ≤ max_storage := by
      unfold storage_check_and_add at hc
      by_cases hgt : max_storage < s.storage + chunk.length
      · rw [if_pos hgt] at hc; cases hc
      · rw [if_neg hgt] at hc; cases hc; omega
    by_cases hext : extracted
    · subst hext
      simp only [if_pos] at h
      cases h
      exact hle
    · simp only [Bool.not_eq_true] at hext
      subst hext
      simp only [Bool.false_eq_true, if_neg, reduceIte] at h
      cases hp : env.try_parse (buf ++ chunk) with
      | some m => rw [hp] at h; cases h; exact hle
      | none => rw [hp] at h; cases h; exact hle

theorem dl_chunks_storage_le (max_storage : Nat) (env : DlEnv) (video_id file_path : String)
    (resp_cl : Option Nat) :
    ∀ (chunks : List (List Nat)) (i : Nat) (buf : List Nat) (downloaded : Nat)
      (extracted : Bool) (s : EngState), s.storage ≤ max_storage →
      (dl_chunks max_storage env video_id file_path resp_cl chunks i buf downloaded
          extracted s).1.storage ≤ max_storage
  | [], _, _, _, _, _, hs => hs
  | chunk :: rest, i, buf, downloaded, extracted, s, hs => by
    unfold dl_chunks
    cases hstep : dl_chunk_step max_storage env video_id file_path resp_cl i chunk buf
        downloaded extracted s with
    | none => exact hs
    | some out =>
      rcases out with ⟨s', buf', downloaded', extracted'⟩
      exact dl_chunks_storage_le max_storage env video_id file_path resp_cl rest (i + 1)
        buf' downloaded' extracted' s' (dl_chunk_step_storage_le hstep)

theorem dvp_setup_storage (video_id file_path : String) (resp_cl : Option Nat) (s : EngState) :
    (dvp_setup video_id file_path resp_cl s).storage = s.storage := by
  cases resp_cl <;> rfl

theorem dvp_finalize_storage (env : DlEnv) (video_id file_path : String)
    (out : EngState × Option (List Nat × Nat × Bool)) :
    (dvp_finalize env video_id file_path out).1.storage = out.1.storage := by
  rcases out with ⟨s4, r⟩
  cases r with
  | none => rfl
  | some t =>
    rcases t with ⟨buf, d, ext⟩
    cases ext <;> cases hp : env.try_parse buf <;> simp [dvp_finalize, hp]

theorem c5_storage_budget_invariant :
    (∀ (max_storage current : Nat),
        StorageReach max_storage current → current ≤ max_storage) ∧
      (∀ (max_storage : Nat) (env : DlEnv) (video : VideoDownload) (resp : HttpResp)
          (s : EngState), s.storage ≤ max_storage →
          (download_video_progressive max_storage env video resp s).1.storage ≤ max_storage) := by
  constructor
  · intro max_storage current h
    induction h with
    | base => exact Nat.zero_le _
    | chunk current current' len _ heq ih =>
      unfold storage_check_and_add at heq
      by_cases h : max_storage < current + len
      · rw [if_pos h] at heq; cases heq
      · rw [if_neg h] at heq; cases heq; omega
  · intro max_storage env video resp s hs
    unfold download_video_progressive
    by_cases hok : resp.ok
    · simp only [hok, not_true_eq_false, if_false]
      rw [dvp_finalize_storage]
      exact dl_chunks_storage_le max_storage env video.id env.new_path resp.content_length
        resp.chunks 0 [] 0 false (dvp_setup video.id env.new_path resp.content_length s)
        ((dvp_setup_storage video.id env.new_path resp.content_length s).le.trans hs)
    · simp [hok, hs]

theorem c5_storage_budget_witness :
    (70 : Nat) ≤ 100 ∧
      (download_video_progressive 100 dl_env0 vQ resp_over
          { discovered := [("A", vQ)], storage := 0, files := [] }).1.storage ≤ 100 := by
  constructor
  · exact c5_storage_budget_invariant.1 100 70
      (StorageReach.chunk 30 70 40 (StorageReach.chunk 0 30 30 StorageReach.base (by decide))
        (by decide))
  · exact c5_storage_budget_invariant.2 100 dl_env0 vQ resp_over
      { discovered := [("A", vQ)], storage := 0, files := [] } (by decide)

/-! ## Scheduler tick loop and concurrency admission (`src/download/manager.rs`,
lines 49-66, 125-147, 176-211) -/

/-- The scheduler-visible shared state: the discovered table and the download
queue. -/
structure SchedState where
  discovered : List (String × VideoDownload)
  queue : List VideoDownload
deriving DecidableEq

/-- `iter().filter(|v| v.downloading).count()`. -/
def count_downloading (l : List VideoDownload) : Nat :=
  (l.filter (fun v => v.downloading)).length

/-- The number of discovered items currently flagged as downloading. -/
def discovered_downloading (s : SchedState) : Nat :=
  count_downloading (s.discovered.map Prod.snd)

/-- `update_download_queue` (manager.rs lines 125-147): rebuild the queue
wholesale from the discovered table, keeping only items without a local file,
ranked by the two-phase sort. -/
def update_download_queue (tv : Nat) (tm : ℚ) (s : SchedState) : SchedState :=
  let candidates := (s.discovered.map Prod.snd).filter (fun v => !(has_local_file v))
  { s with queue := sort_videos_for_download tv tm candidates }

/-- `queue.iter_mut().find(|qv| qv.id == id)` + flag flip (manager.rs lines
206-211). -/
def set_queue_downloading (id : String) : List VideoDownload → List VideoDownload
  | [] => []
  | v :: rest =>
    if v.id = id then { v with downloading := true } :: rest
    else v :: set_queue_downloading id rest

/-- Marking one admitted video as downloading in the discovered table and in
the queue (manager.rs lines 198-211). -/
def mark_downloading (id : String) (s : SchedState) : SchedState :=
  { discovered := alist_update id (fun v => { v with downloading := true }) s.discovered,
    queue := set_queue_downloading id s.queue }

/-- `download_videos`' admission step (manager.rs lines 176-211): count the
queue-snapshot entries flagged as downloading; if below the limit, start the
next `max - count` not-downloading entries from the head of the snapshot. -/
def download_videos_admit (max_downloads : Nat) (s : SchedState) : SchedState :=
  let concurrent := count_downloading s.queue
  if max_downloads ≤ concurrent then s
  else
    ((s.queue.filter (fun v => !v.downloading)).take (max_downloads - concurrent)).foldl
      (fun st v => mark_downloading v.id st) s

/-- One scheduler tick (the loop body of `run`, manager.rs lines 49-66) with an
empty discovery batch: queue rebuild, behind-limit enforcement, admission. -/
def sched_tick (max_downloads tv : Nat) (tm : ℚ) (max_behind current_idx : Nat)
    (s : SchedState) : SchedState :=
  let s1 := update_download_queue tv tm s
  let s2 :=
    { s1 with discovered := (enforce_behind_limit current_idx max_behind s1.discovered 0).1 }
  download_videos_admit max_downloads s2

/-- The download task's first state mutation (manager.rs lines 377-383): while
its item is still marked downloading, the task stores the freshly created
file's path as `local_path` in the discovered table. -/
def task_store_local_path (id path : String) (s : SchedState) : SchedState :=
  { s with discovered :=
      alist_update id (fun v => { v with local_path := some path }) s.discovered }

/-- The download task's terminal state mutation (manager.rs lines 227-247 and
486-492): `downloading := false` in the discovered table and the queue entry
removed, on success and on failure alike. -/
def task_finish (id : String) (s : SchedState) : SchedState :=
  { discovered := alist_update id (fun v => { v with downloading := false }) s.discovered,
    queue := remove_first_by_id id s.queue }

/-- Whether the discovered table currently flags `id` as downloading. -/
def sched_is_downloading (s : SchedState) (id : String) : Bool :=
  match alist_get id s.discovered with
  | some v => v.downloading
  | none => false

/-- States reachable from `s` by interleaving scheduler ticks with the atomic
(mutex-guarded) state mutations of spawned download tasks.  A task stores a
`local_path` only while its item is flagged downloading, and finishes only
such an item — exactly the situations the source realizes. -/
inductive SchedReach (max_downloads tv : Nat) (tm : ℚ) (max_behind current_idx : Nat) :
    SchedState → SchedState → Prop
  | refl (s : SchedState) : SchedReach max_downloads tv tm max_behind current_idx s s
  | tick (s t : SchedState) :
      SchedReach max_downloads tv tm max_behind current_idx s t →
      SchedReach max_downloads tv tm max_behind current_idx s
        (sched_tick max_downloads tv tm max_behind current_idx t)
  | store (s t : SchedState) (id path : String) :
      SchedReach max_downloads tv tm max_behind current_idx s t →
      sched_is_downloading t id = true →
      SchedReach max_downloads tv tm max_behind current_idx s
        (task_store_local_path id path t)
  | finish (s t : SchedState) (id : String) :
      SchedReach max_downloads tv tm max_behind current_idx s t →
      sched_is_downloading t id = true →
      SchedReach max_downloads tv tm max_behind current_idx s (task_finish id t)

/-- The initial state of claim C3's failing trace: two discovered items, no
local files, nothing downloading, empty queue; `max_parallel_downloads = 1`. -/
def c3_s0 : SchedState := { discovered := [("A", vA), ("C", vC)], queue := [] }

/-- The violating state: tick (admits C), the running task stores C's file
path, tick again (C has a local file, so the rebuilt queue no longer contains
it; the admission step counts zero active downloads and admits A as well). -/
def c3_s3 : SchedState :=
  sched_tick 1 15 60 60 0
    (task_store_local_path "C" "/tmp/c.mp4" (sched_tick 1 15 60 60 0 c3_s0))

/-- Claim C3: with `max_parallel_downloads = 1`, a state with two items flagged
downloading is reachable by the tick loop interleaved with a legal task step:
the admission step counts `downloading` only over the freshly rebuilt queue,
and an in-flight download that has already created its file is dropped from
that queue by `update_download_queue`'s `!has_local_file` filter, so its task
is no longer counted and a second download is admitted. -/
theorem c3_admission_exceeds_limit :
    SchedReach 1 15 60 60 0 c3_s0 c3_s3 ∧ discovered_downloading c3_s3 = 2 ∧
      1 < discovered_downloading c3_s3 := by
  refine ⟨?_, by decide, by decide⟩
  exact SchedReach.tick c3_s0 _
    (SchedReach.store c3_s0 _ "C" "/tmp/c.mp4" (SchedReach.tick c3_s0 _ (SchedReach.refl c3_s0))
      (by decide))

/-! ## HTTP range serving (`src/handlers/handlers.rs`, lines 26-123) -/

/-- ASCII decimal digit test. -/
def is_digit_ch (c : Char) : Bool := '0' ≤ c && c ≤ '9'

/-- Numeric value of a digit string, most significant digit first. -/
def digits_val (l : List Char) : Nat :=
  l.foldl (fun acc c => acc * 10 + (c.toNat - '0'.toNat)) 0

/-- A leading `'+'` sign is consumed (as `str::parse::<u64>` does). -/
def strip_plus : List Char → List Char
  | [] => []
  | c :: rest => if c = '+' then rest else c :: rest

/-- `str::parse::<u64>` on a range part: an optional leading `'+'`, then one or
more ASCII digits, and the value must fit in `u64`. -/
def parse_u64 (s : List Char) : Option Nat :=
  let ds := strip_plus s
  if ds.isEmpty then none
  else if ds.all is_digit_ch then
    if digits_val ds < U64MOD then some (digits_val ds) else none
  else none

/-- `str::split('-')`: the list of separator-free parts (always nonempty; a
separator starts a new empty part, any other character is prepended to the
first part of the remainder's split). -/
def split_dash : List Char → List (List Char)
  | [] => [[]]
  | c :: cs =>
    let r := split_dash cs
    if c = '-' then [] :: r else (c :: r.headD []) :: r.tail

/-- The characters of the `"bytes="` marker. -/
def bytes_eq_chars : List Char := ['b', 'y', 't', 'e', 's', '=']

/-- `parse_range_header` (handlers.rs lines 101-123), `none` being the
`BAD_REQUEST` rejection: require the `"bytes="` marker, split the remainder on
`'-'` into exactly two parts, parse the first as `u64`; an empty second part
means `file_size - 1` (computed in `u64`, wrapping when `file_size = 0`),
otherwise parse it as `u64`.  The two numbers are never compared with each
other. -/
def parse_range_header (range_str : List Char) (file_size : Nat) : Option (Nat × Nat) :=
  if range_str.take 6 = bytes_eq_chars then
    match split_dash (range_str.drop 6) with
    | [p0, p1] =>
      match parse_u64 p0 with
      | none => none
      | some a =>
        if p1.isEmpty then some (a, usub64 file_size 1)
        else
          match parse_u64 p1 with
          | none => none
          | some e => some (a, e)
    | _ => none
  else none

/-- `end - start + 1` computed in `u64` (handlers.rs line 71): the subtraction
wraps when `end < start`. -/
def chunk_size64 (start e : Nat) : Nat := wrap64 (usub64 e start + 1)

/-- Decimal digits of a natural number (the fuel argument only bounds the
recursion depth; `fuel = n` suffices since a number has at most `n` digits). -/
def nat_digits_go : Nat → Nat → List Char → List Char
  | 0, _, acc => acc
  | _ + 1, 0, acc => acc
  | fuel + 1, n, acc =>
    nat_digits_go fuel (n / 10) (Char.ofNat ('0'.toNat + n % 10) :: acc)

/-- Decimal rendering of a natural number, as `format!("{}")` produces. -/
def nat_digits (n : Nat) : List Char :=
  if n = 0 then ['0'] else nat_digits_go n n []

/-- `format!("bytes {}-{}/{}", start, end, file_size)` (handlers.rs line 87). -/
def content_range_str (a e n : Nat) : List Char :=
  ['b', 'y', 't', 'e', 's', ' '] ++ nat_digits a ++ '-' :: nat_digits e ++ '/' :: nat_digits n

/-- The four response shapes the `stream_video` file-serving core produces. -/
inductive StreamResp
  | full (body : List Nat)
  | range206 (content_range : List Char) (body : List Nat)
  | bad_request
  | not_satisfiable
deriving DecidableEq

/-- The file-serving core of `stream_video` (handlers.rs lines 44-95), given
the on-disk file's bytes and the request's `Range` header: no header serves the
whole file at `200`; a header is parsed (`400` on failure), then `416` when
`start ≥ file_size`, else `end` is clamped to `file_size - 1` and
`end - start + 1` bytes from offset `start` are served at `206` (the file
yields only the bytes it has, as the reader hits end-of-file). -/
def stream_video (file : List Nat) (range_header : Option (List Char)) : StreamResp :=
  let file_size := file.length
  match range_header with
  | none => .full file
  | some range_str =>
    match parse_range_header range_str file_size with
    | none => .bad_request
    | some (start, e0) =>
      if file_size ≤ start then .not_satisfiable
      else
        let e := min e0 (file_size - 1)
        .range206 (content_range_str start e file_size)
          ((file.drop start).take (chunk_size64 start e))

/-- The spec-side shape of a `u64` literal: optional `'+'`, one or more digits,
value below `2 ^ 64`. -/
def u64_lit (s : List Char) (v : Nat) : Prop :=
  ∃ ds : List Char, (s = ds ∨ s = '+' :: ds) ∧ ds ≠ [] ∧ ds.all is_digit_ch = true ∧
    digits_val ds = v ∧ v < U64MOD

/-- The spec-side shape of an accepted `Range` header: `bytes=a-b` (`b` a
number) or `bytes=a-` (`b` absent). -/
def range_form (s : List Char) (a : Nat) (b : Option Nat) : Prop :=
  ∃ p0 p1 : List Char, s = bytes_eq_chars ++ p0 ++ '-' :: p1 ∧ u64_lit p0 a ∧
    ((b = none ∧ p1 = []) ∨ ∃ bv, b = some bv ∧ u64_lit p1 bv)

/-- The second component `parse_range_header` returns for a given request. -/
def parse_end (b : Option Nat) (file_size : Nat) : Nat :=
  match b with
  | some bv => bv
  | none => usub64 file_size 1

/-- The effective range end after the clamp at handlers.rs line 70. -/
def range_end (b : Option Nat) (file_size : Nat) : Nat :=
  match b with
  | some bv => min bv (file_size - 1)
  | none => file_size - 1

end Tokstr

namespace Tokstr

/-- Inverse of `split_dash`: re-join the parts with `'-'`. -/
def join_dash : List (List Char) → List Char
  | [] => []
  | [p] => p
  | p :: ps => p ++ '-' :: join_dash ps

theorem is_digit_ne_dash {c : Char} (h : is_digit_ch c = true) : c ≠ '-' := by
  intro he
  subst he
  exact absurd h (by decide)

theorem is_digit_ne_plus {c : Char} (h : is_digit_ch c = true) : c ≠ '+' := by
  intro he
  subst he
  exact absurd h (by decide)

theorem u64_lit_ne_nil {p : List Char} {v : Nat} (h : u64_lit p v) : p ≠ [] := by
  rcases h with ⟨ds, hds, hne, -, -, -⟩
  rcases hds with rfl | rfl
  · exact hne
  · exact List.cons_ne_nil _ _

theorem u64_lit_no_dash {p : List Char} {v : Nat} (h : u64_lit p v) : '-' ∉ p := by
  rcases h with ⟨ds, hds, hne, hdig, -, -⟩
  have hd : '-' ∉ ds := by
    intro hm
    exact is_digit_ne_dash (List.all_eq_true.mp hdig '-' hm) rfl
  rcases hds with rfl | rfl
  · exact hd
  · intro hm
    rcases List.mem_cons.mp hm with he | hm
    · exact absurd he (by decide)
    · exact hd hm

theorem strip_plus_digits (ds : List Char) (hne : ds ≠ [])
    (hdig : ds.all is_digit_ch = true) : strip_plus ds = ds := by
  cases ds with
  | nil => exact absurd rfl hne
  | cons d tl =>
    simp only [strip_plus]
    rw [if_neg (is_digit_ne_plus (List.all_eq_true.mp hdig d (List.mem_cons_self d tl)))]

theorem strip_plus_plus (ds : List Char) : strip_plus ('+' :: ds) = ds := by
  simp [strip_plus]

theorem strip_plus_shape (s : List Char) : s = strip_plus s ∨ s = '+' :: strip_plus s := by
  cases s with
  | nil => exact Or.inl rfl
  | cons c cs => by_cases hc : c = '+' <;> simp [strip_plus, hc]

theorem parse_u64_complete {s : List Char} {v : Nat} (h : u64_lit s v) :
    parse_u64 s = some v := by
  rcases h with ⟨ds, hds, hne, hdig, hval, hlt⟩
  have hsp : strip_plus s = ds := by
    rcases hds with h | h
    · rw [h, strip_plus_digits ds hne hdig]
    · rw [h, strip_plus_plus]
  have hie : ds.isEmpty = false := by
    cases ds with
    | nil => exact absurd rfl hne
    | cons d tl => rfl
  simp only [parse_u64, hsp, hie, hdig, hval]
  simp [hlt]

theorem parse_u64_sound {s : List Char} {v : Nat} (h : parse_u64 s = some v) :
    u64_lit s v := by
  simp only [parse_u64] at h
  by_cases hie : (strip_plus s).isEmpty
  · rw [if_pos hie] at h
    cases h
  · rw [if_neg hie] at h
    by_cases hdig : (strip_plus s).all is_digit_ch
    · rw [if_pos hdig] at h
      by_cases hlt : digits_val (strip_plus s) < U64MOD
      · rw [if_pos hlt] at h
        injection h with hv
        exact ⟨strip_plus s, strip_plus_shape s,
          fun hnil => by simp [hnil] at hie, hdig, hv, hv ▸ hlt⟩
      · rw [if_neg hlt] at h
        cases h
    · rw [if_neg hdig] at h
      cases h

theorem split_dash_cons (c : Char) (cs : List Char) :
    split_dash (c :: cs) =
      if c = '-' then [] :: split_dash cs
      else (c :: (split_dash cs).headD []) :: (split_dash cs).tail := rfl

theorem split_dash_ne_nil : ∀ l : List Char, split_dash l ≠ []
  | [] => by simp [split_dash]
  | c :: cs => by
    simp only [split_dash]
    by_cases hc : c = '-' <;> simp [hc]

theorem join_dash_cons_cons (p q : List Char) (ps : List (List Char)) :
    join_dash (p :: q :: ps) = p ++ '-' :: join_dash (q :: ps) := rfl

theorem split_dash_join : ∀ l : List Char, join_dash (split_dash l) = l
  | [] => rfl
  | c :: cs => by
    have ih := split_dash_join cs
    simp only [split_dash]
    cases hsc : split_dash cs with
    | nil => exact absurd hsc (split_dash_ne_nil cs)
    | cons p ps =>
      rw [hsc] at ih
      by_cases hc : c = '-'
      · subst hc
        rw [if_pos rfl, join_dash_cons_cons]
        simpa using ih
      · rw [if_neg hc]
        simp only [List.headD_cons, List.tail_cons]
        cases ps with
        | nil =>
          simp only [join_dash] at ih ⊢
          rw [ih]
        | cons q qs =>
          rw [join_dash_cons_cons] at ih ⊢
          rw [List.cons_append, ih]

theorem split_dash_parts_no_dash : ∀ (l : List Char) (p : List Char),
    p ∈ split_dash l → '-' ∉ p
  | [], p, hp => by
    simp only [split_dash, List.mem_singleton] at hp
    subst hp
    simp
  | c :: cs, p, hp => by
    simp only [split_dash] at hp
    cases hsc : split_dash cs with
    | nil => exact absurd hsc (split_dash_ne_nil cs)
    | cons q qs =>
      rw [hsc] at hp
      by_cases hc : c = '-'
      · rw [if_pos hc] at hp
        rcases List.mem_cons.mp hp with rfl | hp
        · simp
        · exact split_dash_parts_no_dash cs p (hsc ▸ hp)
      · rw [if_neg hc] at hp
        simp only [List.headD_cons, List.tail_cons] at hp
        rcases List.mem_cons.mp hp with rfl | hp
        · intro hm
          rcases List.mem_cons.mp hm with he | hm
          · exact hc he.symm
          · exact split_dash_parts_no_dash cs q (hsc ▸ List.mem_cons_self q qs) hm
        · exact split_dash_parts_no_dash cs p (hsc ▸ List.mem_cons_of_mem q hp)

theorem split_dash_of_no_dash : ∀ p : List Char, '-' ∉ p → split_dash p = [p]
  | [], _ => rfl
  | c :: cs, h => by
    have hc : c ≠ '-' := fun he => h (he ▸ List.mem_cons_self c cs)
    have ih := split_dash_of_no_dash cs (fun hm => h (List.mem_cons_of_mem c hm))
    simp only [split_dash, ih]
    rw [if_neg hc]
    simp

theorem split_dash_append (p0 p1 : List Char) (h : '-' ∉ p0) :
    split_dash (p0 ++ '-' :: p1) = p0 :: split_dash p1 := by
  induction p0 with
  | nil =>
    rw [List.nil_append, split_dash_cons, if_pos rfl]
  | cons c cs ih =>
    have hc : c ≠ '-' := fun he => h (he ▸ List.mem_cons_self c cs)
    have ih' := ih (fun hm => h (List.mem_cons_of_mem c hm))
    rw [List.cons_append, split_dash_cons, ih', if_neg hc]
    simp

theorem split_dash_eq_two {l p0 p1 : List Char} (h : split_dash l = [p0, p1]) :
    l = p0 ++ '-' :: p1 ∧ '-' ∉ p0 ∧ '-' ∉ p1 := by
  refine ⟨?_, ?_, ?_⟩
  · have hj := split_dash_join l
    rw [h, join_dash_cons_cons] at hj
    simpa [join_dash] using hj.symm
  · exact split_dash_parts_no_dash l p0 (h ▸ List.mem_cons_self p0 [p1])
  · exact split_dash_parts_no_dash l p1 (h ▸ List.mem_cons_of_mem p0 (List.mem_cons_self p1 []))

end Tokstr

namespace Tokstr

theorem parse_range_header_complete {s : List Char} {a : Nat} {b : Option Nat}
    (h : range_form s a b) (n : Nat) :
    parse_range_header s n = some (a, parse_end b n) := by
  rcases h with ⟨p0, p1, rfl, h0, hb⟩
  have htake : (bytes_eq_chars ++ (p0 ++ '-' :: p1)).take 6 = bytes_eq_chars :=
    List.take_left' rfl
  have hdrop : (bytes_eq_chars ++ (p0 ++ '-' :: p1)).drop 6 = p0 ++ '-' :: p1 :=
    List.drop_left' rfl
  have hsplit : split_dash (p0 ++ '-' :: p1) = p0 :: split_dash p1 :=
    split_dash_append p0 p1 (u64_lit_no_dash h0)
  simp only [parse_range_header, List.append_assoc] at *
  rw [if_pos htake, hdrop, hsplit]
  rcases hb with ⟨rfl, rfl⟩ | ⟨bv, rfl, h1⟩
  · simp only [split_dash, parse_u64_complete h0, List.isEmpty_nil, if_pos]
    rfl
  · rw [split_dash_of_no_dash p1 (u64_lit_no_dash h1)]
    simp only [parse_u64_complete h0, parse_u64_complete h1]
    have hne : p1.isEmpty = false := by
      cases hp1 : p1 with
      | nil => exact absurd hp1 (u64_lit_ne_nil h1)
      | cons c cs => rfl
    rw [hne]
    rfl

theorem parse_range_header_sound {s : List Char} {n a e : Nat}
    (h : parse_range_header s n = some (a, e)) :
    ∃ b : Option Nat, range_form s a b ∧ e = parse_end b n := by
  simp only [parse_range_header] at h
  by_cases htake : s.take 6 = bytes_eq_chars
  · rw [if_pos htake] at h
    have hs : s = bytes_eq_chars ++ s.drop 6 := by
      conv_lhs => rw [← List.take_append_drop 6 s]
      rw [htake]
    rcases hsd : split_dash (s.drop 6) with _ | ⟨p0, tl⟩
    · exact absurd hsd (split_dash_ne_nil _)
    · rcases tl with _ | ⟨p1, tl2⟩
      · simp only [hsd] at h
        exact Option.noConfusion h
      · rcases tl2 with _ | ⟨p2, tl3⟩
        · simp only [hsd] at h
          obtain ⟨hjoin, hnd0, hnd1⟩ := split_dash_eq_two hsd
          cases hp0 : parse_u64 p0 with
          | none =>
            simp only [hp0] at h
            exact Option.noConfusion h
          | some a' =>
            simp only [hp0] at h
            by_cases hie : p1.isEmpty
            · rw [if_pos hie] at h
              injection h with hpair
              injection hpair with ha he
              subst ha
              refine ⟨none, ⟨p0, p1, ?_, parse_u64_sound hp0, Or.inl ⟨rfl, ?_⟩⟩, he.symm⟩
              · rw [hs, hjoin]
                simp
              · exact List.isEmpty_iff.mp hie
            · rw [if_neg hie] at h
              cases hp1 : parse_u64 p1 with
              | none =>
                simp only [hp1] at h
                exact Option.noConfusion h
              | some bv =>
                simp only [hp1] at h
                injection h with hpair
                injection hpair with ha he
                subst ha
                refine ⟨some bv, ⟨p0, p1, ?_, parse_u64_sound hp0,
                  Or.inr ⟨bv, rfl, parse_u64_sound hp1⟩⟩, ?_⟩
                · rw [hs, hjoin]
                  simp
                · rw [← he]
                  rfl
        · simp only [hsd] at h
          exact Option.noConfusion h
  · rw [if_neg htake] at h
    cases h
end Tokstr

namespace Tokstr

theorem U64MOD_eq : U64MOD = 18446744073709551616 := by norm_num [U64MOD]

theorem usub64_eq_sub {a b : Nat} (hba : b ≤ a) (ha : a < U64MOD) : usub64 a b = a - b := by
  unfold usub64
  rw [U64MOD_eq] at *
  omega

theorem usub64_of_lt {a b : Nat} (hab : a < b) (hb : b ≤ U64MOD) :
    usub64 a b = U64MOD - (b - a) := by
  unfold usub64
  rw [U64MOD_eq] at *
  omega

theorem chunk_size64_of_le {a e : Nat} (hae : a ≤ e) (he1 : e - a + 1 < U64MOD)
    (heM : e < U64MOD) : chunk_size64 a e = e - a + 1 := by
  unfold chunk_size64 wrap64
  rw [usub64_eq_sub hae heM]
  rw [U64MOD_eq] at *
  omega

/-- Claim C6 (amended): the file-serving core of `stream_video`.  With no
`Range` header the whole file is served at `200`.  For a well-formed
`bytes=a-b` / `bytes=a-` header: `416` when `a ≥ total`; otherwise, **provided
`a ≤ e`** where `e = min(b, total-1)` (`e = total-1` when `b` is absent), a
`206` with `Content-Range: bytes a-e/total` and exactly the bytes `a..e` of
the file.  Any other header form yields `400` (third conjunct: any request not
rejected with `400` has the `bytes=a-b?` form).  The `a ≤ e` proviso is the
amendment: for `b < a` the claim as stated fails (see the counterexample), as
`end - start + 1` underflows and the body is not `bytes a through e`. -/
theorem c6_stream_video_range_semantics (file : List Nat) (hfs : file.length < U64MOD) :
    stream_video file none = StreamResp.full file ∧
      (∀ (s : List Char) (a : Nat) (b : Option Nat), range_form s a b →
        (file.length ≤ a → stream_video file (some s) = StreamResp.not_satisfiable) ∧
        (a < file.length → a ≤ range_end b file.length →
          stream_video file (some s) =
            StreamResp.range206
              (content_range_str a (range_end b file.length) file.length)
              ((file.drop a).take (range_end b file.length - a + 1)))) ∧
      (∀ s : List Char, (¬ ∃ a b, range_form s a b) →
        stream_video file (some s) = StreamResp.bad_request) := by
  refine ⟨rfl, ?_, ?_⟩
  · intro s a b hform
    have hparse := parse_range_header_complete hform file.length
    constructor
    · intro hge
      simp only [stream_video, hparse]
      rw [if_pos hge]
    · intro hlt hae
      simp only [stream_video, hparse]
      rw [if_neg (not_le.mpr hlt)]
      have hrange : min (parse_end b file.length) (file.length - 1) =
          range_end b file.length := by
        cases b with
        | some bv => rfl
        | none =>
          simp only [parse_end, range_end]
          rw [usub64_eq_sub (by omega) hfs]
          simp
      have he : range_end b file.length ≤ file.length - 1 := by
        cases b with
        | some bv => exact min_le_right _ _
        | none => exact le_refl _
      have hcs : chunk_size64 a (range_end b file.length) =
          range_end b file.length - a + 1 :=
        chunk_size64_of_le hae (by omega) (by omega)
      rw [hrange, hcs]
  · intro s hnform
    cases hp : parse_range_header s file.length with
    | none => simp only [stream_video, hp]
    | some pe =>
      rcases pe with ⟨a, e⟩
      obtain ⟨b, hform, -⟩ := parse_range_header_sound hp
      exact absurd ⟨a, b, hform⟩ hnform

/-- Claim C6, counterexample to the claim as stated: for
`Range: bytes=5-3` on a 10-byte file the claim demands a `206` whose body is
"bytes 5 through 3" — the empty list — but the code replies `206` with the
bytes from offset 5 to end-of-file, because `end - start + 1` underflows to a
huge `u64` and the reader simply drains the file. -/
theorem c6_counterexample :
    stream_video (List.range 10)
        (some ['b', 'y', 't', 'e', 's', '=', '5', '-', '3']) =
      StreamResp.range206 (content_range_str 5 3 10) [5, 6, 7, 8, 9] ∧
      stream_video (List.range 10)
          (some ['b', 'y', 't', 'e', 's', '=', '5', '-', '3']) ≠
        StreamResp.range206 (content_range_str 5 3 10) [] := by
  constructor <;> decide

/-- Concrete instantiation of claim C6's theorem on a 4-byte file: the
no-header case and the `bytes=1-2` case. -/
theorem c6_witness :
    (List.range 4).length < U64MOD ∧
      stream_video (List.range 4) none = StreamResp.full (List.range 4) ∧
      stream_video (List.range 4)
          (some ['b', 'y', 't', 'e', 's', '=', '1', '-', '2']) =
        StreamResp.range206
          (content_range_str 1 (range_end (some 2) (List.range 4).length)
            (List.range 4).length)
          (((List.range 4).drop 1).take
            (range_end (some 2) (List.range 4).length - 1 + 1)) := by
  have hfs : (List.range 4).length < U64MOD := by rw [U64MOD_eq]; decide
  have hmain := c6_stream_video_range_semantics (List.range 4) hfs
  refine ⟨hfs, hmain.1, ?_⟩
  have hform : range_form ['b', 'y', 't', 'e', 's', '=', '1', '-', '2'] 1 (some 2) :=
    ⟨['1'], ['2'], rfl,
      ⟨['1'], Or.inl rfl, by decide, by decide, by decide, by rw [U64MOD_eq]; decide⟩,
      Or.inr ⟨2, rfl,
        ⟨['2'], Or.inl rfl, by decide, by decide, by decide, by rw [U64MOD_eq]; decide⟩⟩⟩
  exact (hmain.2.1 _ 1 (some 2) hform).2 (by decide) (by decide)

/-- Claim C10: for `Range: bytes=a-b` with `b < a < total`, the parser accepts
the pair without ever comparing the two numbers, neither the `400` nor the
`416` branch fires, and the code reaches `end - start + 1` with
`end = min(b, total-1) < start`: the `u64` subtraction wraps
(`usub64 end start = 2^64 - (start - end)`), making the requested chunk size
the wrapped value `2^64 - (start - end - 1)`, and a `206` is produced whose
body is read with that huge byte count. -/
theorem c10_reverse_range_underflows (file : List Nat) (p0 p1 : List Char) (a b : Nat)
    (hfs : file.length < U64MOD) (h0 : u64_lit p0 a) (h1 : u64_lit p1 b)
    (hba : b < a) (han : a < file.length) :
    parse_range_header (bytes_eq_chars ++ p0 ++ '-' :: p1) file.length = some (a, b) ∧
      min b (file.length - 1) < a ∧
      usub64 (min b (file.length - 1)) a = U64MOD - (a - min b (file.length - 1)) ∧
      chunk_size64 a (min b (file.length - 1)) =
        wrap64 (U64MOD - (a - min b (file.length - 1) - 1)) ∧
      stream_video file (some (bytes_eq_chars ++ p0 ++ '-' :: p1)) =
        StreamResp.range206 (content_range_str a (min b (file.length - 1)) file.length)
          ((file.drop a).take (chunk_size64 a (min b (file.length - 1)))) := by
  have hform : range_form (bytes_eq_chars ++ p0 ++ '-' :: p1) a (some b) :=
    ⟨p0, p1, by simp, h0, Or.inr ⟨b, rfl, h1⟩⟩
  have hparse := parse_range_header_complete hform file.length
  simp only [parse_end] at hparse
  have hmin : min b (file.length - 1) < a := lt_of_le_of_lt (min_le_left _ _) hba
  refine ⟨hparse, hmin, ?_, ?_, ?_⟩
  · exact usub64_of_lt hmin (le_of_lt (lt_trans han hfs))
  · unfold chunk_size64
    rw [usub64_of_lt hmin (le_of_lt (lt_trans han hfs))]
    have : U64MOD - (a - min b (file.length - 1)) + 1 =
        U64MOD - (a - min b (file.length - 1) - 1) := by
      rw [U64MOD_eq] at *
      omega
    rw [this]
  · simp only [stream_video, hparse]
    rw [if_neg (not_le.mpr han)]

/-- Concrete instantiation of claim C10's theorem: `bytes=5-3` on a 10-byte
file parses to `(5, 3)` and the clamped end `3` lies strictly below the start
`5`. -/
theorem c10_witness :
    parse_range_header (bytes_eq_chars ++ ['5'] ++ '-' :: ['3']) (List.range 10).length =
        some (5, 3) ∧ min 3 ((List.range 10).length - 1) < 5 := by
  have h := c10_reverse_range_underflows (List.range 10) ['5'] ['3'] 5 3
    (by rw [U64MOD_eq]; decide)
    ⟨['5'], Or.inl rfl, by decide, by decide, by decide, by rw [U64MOD_eq]; decide⟩
    ⟨['3'], Or.inl rfl, by decide, by decide, by decide, by rw [U64MOD_eq]; decide⟩
    (by decide) (by decide)
  exact ⟨h.1, h.2.1⟩

end Tokstr
